/- Verification of the wordle-tui guess-evaluation and feedback-accumulation
   engine (src/main.rs), shallowly embedded in Lean 4.

   Modelling conventions:
   * Rust `String` values holding guesses and the solution are modelled as
     `List Char`.  Per the spec's clarified contract (the game is scoped to
     the 26-letter Latin alphabet, inputs are normalized to uppercase ASCII),
     characters are compared with plain `Char` equality; the byte comparison
     `solution.as_bytes()[index] == letter as u8` coincides with character
     equality on ASCII strings and is modelled as `sol.get? i = some c`.
   * The `HashMap<HashedLetterIndex, LetterPosition>` `known_positions` is
     modelled as a function `Char × Nat → Option LetterPosition`; `insert`
     is pointwise override (the derived `Eq` on the key type is structural
     equality on the pair, and the custom `Hash` is injective on the keys
     that occur, so the HashMap behaves as a map keyed by the pair).
   * The `HashSet<char>` `bad_characters` is modelled as `Char → Bool` with
     insertion as pointwise override; only membership is ever queried.
   * The imperative `for` loops of `submit_guess` are rendered as structural
     recursions that carry the already-processed prefix (`done`); the loop
     index is `done.length`, and `parsed_guess[index] = v` is the
     corresponding element replacement.
-/
import Mathlib

/-- Word as used for solutions, guesses and the pending input buffer. -/
abbrev Word := List Char

/-- LetterPosition from src/main.rs: the per-letter feedback tag.
    `none` renders gray (absent), `wrongPlacement` yellow (present),
    `correct` green. -/
inductive LetterPosition where
  | none
  | wrongPlacement
  | correct
  deriving DecidableEq

/-- ScoredLetter: one letter of a parsed guess together with its marking,
    as in `Vec<(char, Option<LetterPosition>)>`.  An unmarked letter
    (`Option.none`) renders as absent. -/
abbrev ScoredLetter := Char × Option LetterPosition

/-- Number of occurrences of `c` in `w`:
    `solution.chars().filter(|x| x == &letter).count()`. -/
def countIn (w : Word) (c : Char) : Nat :=
  (w.filter (fun x => x == c)).length

/-- Number of already-marked occurrences of `c` in a parsed guess:
    `parsed_guess.iter().filter(|(x, m)| x == &letter && m.is_some()).count()`. -/
def markCount (pg : List ScoredLetter) (c : Char) : Nat :=
  (pg.filter (fun p => p.1 == c && p.2.isSome)).length

/-- First loop of `App::submit_guess` (src/main.rs lines 233-244), marking
    exact matches: position `i` gets `Correct` when the solution contains the
    letter and the solution letter at the same index equals it.  (The
    insertion into `bad_characters` performed by the same loop is modelled in
    `submitGuess` below; it does not affect the markings.) -/
def pass1Go (sol : Word) (i : Nat) : Word → List ScoredLetter
  | [] => []
  | c :: rest =>
    (c, if sol.contains c && (sol.get? i == some c) then some LetterPosition.correct
        else Option.none) :: pass1Go sol (i + 1) rest

/-- Second loop of `App::submit_guess` (src/main.rs lines 246-261): in
    ascending index order, a not-exactly-matched contained letter is marked
    `WrongPlacement` when the solution still has more occurrences of it than
    are already marked anywhere in the parsed guess.  `done` is the processed
    prefix; the current index is `done.length`. -/
def pass2Go (sol : Word) (done : List ScoredLetter) : List ScoredLetter → List ScoredLetter
  | [] => done
  | (c, m) :: rest =>
    if !(sol.contains c) || (sol.get? done.length == some c) then
      pass2Go sol (done ++ [(c, m)]) rest
    else if countIn sol c > markCount (done ++ (c, m) :: rest) c then
      pass2Go sol (done ++ [(c, some LetterPosition.wrongPlacement)]) rest
    else
      pass2Go sol (done ++ [(c, m)]) rest

/-- Scoring of one guess against the solution, as computed by
    `App::submit_guess` before the guess is appended. -/
def evaluateGuess (sol g : Word) : List ScoredLetter :=
  pass2Go sol [] (pass1Go sol 0 g)

/-- Model of the `known_positions` hash map. -/
abbrev KPMap := (Char × Nat) → Option LetterPosition

/-- Third loop of `App::submit_guess` (src/main.rs lines 263-270): every
    marked letter of the parsed guess is inserted into `known_positions`
    keyed by (letter, index). -/
def updateKnownGo (i : Nat) (kp : KPMap) : List ScoredLetter → KPMap
  | [] => kp
  | (l, m) :: rest =>
    updateKnownGo (i + 1)
      (match m with
       | some pos => fun key => if key = (l, i) then some pos else kp key
       | Option.none => kp)
      rest

/-- Insertion of all marked letters of a parsed guess into `known_positions`. -/
def updateKnown (pg : List ScoredLetter) (kp : KPMap) : KPMap :=
  updateKnownGo 0 kp pg

/-- Rust `str::eq_ignore_ascii_case`: equal length and pointwise equality
    after ASCII lowercasing (`Char.toLower` lowercases exactly ASCII). -/
def eqIgnoreAsciiCase (a b : Word) : Bool :=
  a.length == b.length && (a.zip b).all (fun p => p.1.toLower == p.2.toLower)

/-- Modelled from the spec: Rust's `char::is_alphabetic` for the typed
    character.  The spec fixes the clarified contract that only the 26-letter
    Latin alphabet is in scope and input is normalized to uppercase ASCII, so
    alphabetic is modelled as the ASCII letter test. -/
def isAlphabetic (c : Char) : Bool := c.isAlpha

/-- App state from src/main.rs (the fields touched by the core logic). -/
structure App where
  solution : Word
  wordList : List Word
  guesses : List (List ScoredLetter)
  knownPositions : KPMap
  badCharacters : Char → Bool
  currentGuessInput : Word
  exit : Bool

/-- Initial state built in `main`: empty guesses, empty knowledge, empty
    input buffer, not exited. -/
def initApp (solution : Word) (wordList : List Word) : App :=
  { solution := solution
    wordList := wordList
    guesses := []
    knownPositions := fun _ => Option.none
    badCharacters := fun _ => false
    currentGuessInput := []
    exit := false }

/-- App::submit_guess (src/main.rs lines 217-277).  Rejects inputs of wrong
    length or outside the word list; otherwise takes the input buffer,
    scores it, accumulates bad characters and known positions, appends the
    scored guess, and sets `exit` on a win or on the sixth guess. -/
def submitGuess (s : App) : App :=
  if s.currentGuessInput.length ≠ 5 ∨ s.wordList.contains s.currentGuessInput = false then s
  else
    { s with
      currentGuessInput := []
      guesses := s.guesses ++ [evaluateGuess s.solution s.currentGuessInput]
      knownPositions := updateKnown (evaluateGuess s.solution s.currentGuessInput) s.knownPositions
      badCharacters := fun c =>
        s.badCharacters c || (s.currentGuessInput.contains c && !(s.solution.contains c))
      exit :=
        if eqIgnoreAsciiCase s.solution s.currentGuessInput
            || (s.guesses ++ [evaluateGuess s.solution s.currentGuessInput]).length == 6
        then true else s.exit }

/-- Verdict the accumulator assigns to pending-input character `c` at
    position `i`, from `App::color_from_known_information` (src/main.rs
    lines 279-299): bad characters render as absent, otherwise the
    `known_positions` entry decides (no entry renders neutral white). -/
def colorAnswer (s : App) (c : Char) (i : Nat) : Option LetterPosition :=
  if s.badCharacters c then some LetterPosition.none else s.knownPositions (c, i)

/-- Input events delivered to `App::handle_key_event`. -/
inductive KeyEvent where
  | ctrlC
  | enter
  | backspace
  | char (c : Char)
  | other
  deriving DecidableEq

/-- App::handle_key_event (src/main.rs lines 197-215). -/
def handleKeyEvent (s : App) : KeyEvent → App
  | KeyEvent.ctrlC => { s with exit := true }
  | KeyEvent.enter => submitGuess s
  | KeyEvent.backspace => { s with currentGuessInput := s.currentGuessInput.dropLast }
  | KeyEvent.char c =>
    if s.currentGuessInput.length < 5 && isAlphabetic c then
      { s with currentGuessInput := s.currentGuessInput ++ [c.toUpper] }
    else s
  | KeyEvent.other => s

/-- One iteration of `App::run`: events are only handled while `exit` is
    false (drawing reads the state without mutating it). -/
def step (s : App) (e : KeyEvent) : App :=
  if s.exit then s else handleKeyEvent s e

/-- Processing a whole sequence of input events through the run loop. -/
def runEvents (s : App) (es : List KeyEvent) : App :=
  es.foldl step s

/-- Submitting one word: the buffer is set to the word (as typing would) and
    `submit_guess` runs.  A rejected word changes nothing but the buffer. -/
def playWord (s : App) (w : Word) : App :=
  submitGuess { s with currentGuessInput := w }

/-- Submitting a sequence of words in order. -/
def playWords (s : App) (ws : List Word) : App :=
  ws.foldl playWord s

/-- LetterVerdict of the specification: three-valued feedback with the
    strength order Absent < Present < Correct. -/
inductive LetterVerdict where
  | absent
  | present
  | correct
  deriving DecidableEq

/-- Rendering of the code's markings as spec verdicts: an unmarked letter
    and the gray tag are absent, yellow is present, green is correct (this
    is exactly how `emoji`/`color` render a parsed guess). -/
def toVerdict : Option LetterPosition → LetterVerdict
  | Option.none => LetterVerdict.absent
  | some LetterPosition.none => LetterVerdict.absent
  | some LetterPosition.wrongPlacement => LetterVerdict.present
  | some LetterPosition.correct => LetterVerdict.correct

/-- Verdict sequence of a parsed guess. -/
def verdicts (pg : List ScoredLetter) : List LetterVerdict :=
  pg.map (fun p => toVerdict p.2)

/-- Reference algorithm, pass 1 bookkeeping: each guess position annotated
    with its letter and whether it is an exact match. -/
def refAnnotate (sol : Word) (i : Nat) : Word → List (Char × Bool)
  | [] => []
  | c :: rest => (c, sol.get? i == some c) :: refAnnotate sol (i + 1) rest

/-- Number of exact matches of letter `c` in an annotated guess. -/
def refExactCount (ann : List (Char × Bool)) (c : Char) : Nat :=
  (ann.filter (fun p => p.1 == c && p.2)).length

/-- Reference algorithm, pass 2: scanning remaining positions in ascending
    order, a position is Present when the pool still holds an unconsumed
    occurrence of its letter (decrementing the pool) and Absent otherwise. -/
def refPass2 (pool : Char → Nat) : List (Char × Bool) → List LetterVerdict
  | [] => []
  | (c, ex) :: rest =>
    if ex then LetterVerdict.correct :: refPass2 pool rest
    else if 0 < pool c then
      LetterVerdict.present ::
        refPass2 (fun x => if x = c then pool c - 1 else pool x) rest
    else LetterVerdict.absent :: refPass2 pool rest

/-- Two-pass reference algorithm of the specification: the pool starts as
    the solution's letter multiset, pass 1 consumes one occurrence per exact
    match, pass 2 distributes the remainder left to right. -/
def refEvaluate (sol g : Word) : List LetterVerdict :=
  refPass2
    (fun c => countIn sol c - refExactCount (refAnnotate sol 0 g) c)
    (refAnnotate sol 0 g)

/-- Strength of an accumulator answer: unknown < absent < present < correct. -/
def strength : Option LetterPosition → Nat
  | Option.none => 0
  | some LetterPosition.none => 1
  | some LetterPosition.wrongPlacement => 2
  | some LetterPosition.correct => 3

/-- A parsed guess all of whose letters are marked correct. -/
def allCorrect (pg : List ScoredLetter) : Bool :=
  pg.all (fun p => p.2 == some LetterPosition.correct)

/-- Whether the last recorded guess is scored all-correct. -/
def lastAllCorrect (s : App) : Bool :=
  match s.guesses.getLast? with
  | some pg => allCorrect pg
  | Option.none => false

/-- Five-letter uppercase ASCII word, the shape of secrets and accepted
    guesses. -/
abbrev UppercaseWord5 (w : Word) : Prop :=
  w.length = 5 ∧ ∀ c ∈ w, 'A' ≤ c ∧ c ≤ 'Z'

/-- Example secret used by witnesses. -/
def wCRANE : Word := ['C', 'R', 'A', 'N', 'E']

/-- Example guess used by witnesses. -/
def wROUND : Word := ['R', 'O', 'U', 'N', 'D']

/-- Example secret from the specification's duplicate-letter test. -/
def wALLOY : Word := ['A', 'L', 'L', 'O', 'Y']

/-- Example guess from the specification's duplicate-letter test. -/
def wLLAMA : Word := ['L', 'L', 'A', 'M', 'A']

/-! ### Basic helpers -/

theorem contains_iff {w : Word} {c : Char} : w.contains c = true ↔ c ∈ w :=
  List.elem_iff

theorem contains_of_get? {w : Word} {i : Nat} {c : Char} (h : w.get? i = some c) :
    w.contains c = true :=
  contains_iff.mpr (List.get?_mem h)

theorem countIn_eq_zero {w : Word} {c : Char} (h : w.contains c = false) :
    countIn w c = 0 := by
  have hmem : c ∉ w := by
    intro hc
    rw [contains_iff.mpr hc] at h
    cases h
  unfold countIn
  rw [List.length_eq_zero]
  rw [List.filter_eq_nil_iff]
  intro a ha hbeq
  exact hmem (by rwa [show a = c from by simpa using hbeq] at ha)

theorem markCount_append (a b : List ScoredLetter) (c : Char) :
    markCount (a ++ b) c = markCount a c + markCount b c := by
  unfold markCount
  rw [List.filter_append, List.length_append]

theorem markCount_cons (x : ScoredLetter) (l : List ScoredLetter) (c : Char) :
    markCount (x :: l) c =
      (if x.1 == c && x.2.isSome then 1 else 0) + markCount l c := by
  unfold markCount
  rw [List.filter_cons]
  split <;> simp [Nat.add_comm]

theorem mark_cond_eq (sol : Word) (i : Nat) (c : Char) :
    (sol.contains c && (sol.get? i == some c)) = (sol.get? i == some c) := by
  cases h : (sol.get? i == some c) with
  | false => simp
  | true =>
    have hg : sol.get? i = some c := by simpa using h
    rw [contains_of_get? hg]
    simp

theorem pass1Go_get? (sol : Word) :
    ∀ (g : Word) (i j : Nat),
      (pass1Go sol i g).get? j =
        (g.get? j).map (fun c =>
          (c, if sol.contains c && (sol.get? (i + j) == some c)
              then some LetterPosition.correct else Option.none)) := by
  intro g
  induction g with
  | nil => intro i j; simp [pass1Go]
  | cons c rest ih =>
    intro i j
    cases j with
    | zero => simp [pass1Go]
    | succ j' =>
      simp only [pass1Go, List.get?]
      rw [ih (i + 1) j']
      have : i + 1 + j' = i + (j' + 1) := by omega
      rw [this]

theorem pass1_fst (sol : Word) : ∀ (g : Word) (i : Nat),
    (pass1Go sol i g).map Prod.fst = g := by
  intro g
  induction g with
  | nil => intro i; simp [pass1Go]
  | cons c rest ih => intro i; simp [pass1Go, ih]

theorem drop_cons_of_get? {l : Word} {i : Nat} {s : Char} (h : l.get? i = some s) :
    l.drop i = s :: l.drop (i + 1) := by
  rw [List.get?_eq_getElem?] at h
  obtain ⟨hlt, hv⟩ := List.getElem?_eq_some_iff.mp h
  rw [List.drop_eq_getElem_cons hlt, hv]

theorem countIn_cons (s : Char) (t : Word) (c : Char) :
    countIn (s :: t) c = (if s == c then 1 else 0) + countIn t c := by
  unfold countIn
  rw [List.filter_cons]
  split <;> simp [Nat.add_comm]


theorem pass1_mark_isSome (sol : Word) (i : Nat) (c0 : Char) :
    (if sol.contains c0 && (sol.get? i == some c0) then some LetterPosition.correct
     else Option.none).isSome = (sol.get? i == some c0) := by
  rw [mark_cond_eq]
  cases h : (sol.get? i == some c0) <;> simp [h]

theorem markCount_pass1_cons (sol : Word) (i : Nat) (g0 : Char) (rest : Word) (c : Char) :
    markCount (pass1Go sol i (g0 :: rest)) c =
      (if g0 == c && (sol.get? i == some g0) then 1 else 0) +
        markCount (pass1Go sol (i + 1) rest) c := by
  rw [pass1Go, markCount_cons]
  simp only [pass1_mark_isSome]

theorem pass1_markCount_le (sol : Word) (c : Char) :
    ∀ (g : Word) (i : Nat), markCount (pass1Go sol i g) c ≤ countIn (sol.drop i) c := by
  intro g
  induction g with
  | nil => intro i; simp [pass1Go, markCount]
  | cons g0 rest ih =>
    intro i
    have hrec := ih (i + 1)
    rw [markCount_pass1_cons]
    cases hg : sol.get? i with
    | none =>
      have hlen : sol.length ≤ i := List.get?_eq_none.mp hg
      have e1 : countIn (sol.drop i) c = 0 := by
        rw [List.drop_eq_nil_of_le hlen]; simp [countIn]
      have e2 : countIn (sol.drop (i + 1)) c = 0 := by
        rw [List.drop_eq_nil_of_le (by omega : sol.length ≤ i + 1)]; simp [countIn]
      rw [hg] at *
      simp only [e1, e2] at *
      simpa using hrec
    | some s =>
      rw [drop_cons_of_get? hg, countIn_cons]
      by_cases hb : (g0 == c && ((some s : Option Char) == some g0)) = true
      · have hparts : (g0 == c) = true ∧ ((some s : Option Char) == some g0) = true := by
          simpa using hb
        have hg0c : g0 = c := by simpa using hparts.1
        have hsg0 : s = g0 := by simpa using hparts.2
        have hsc : (s == c) = true := by
          rw [hsg0, hg0c]; simp
        rw [if_pos hb, if_pos hsc]
        simpa using hrec
      · rw [if_neg hb]
        split <;> omega

theorem pass1_mark_beq_correct (sol : Word) (i : Nat) (c0 : Char) :
    ((if sol.contains c0 && (sol.get? i == some c0) then some LetterPosition.correct
      else Option.none) == some LetterPosition.correct) = (sol.get? i == some c0) := by
  rw [mark_cond_eq]
  cases h : (sol.get? i == some c0) <;> simp [h]

theorem refExactCount_cons (x : Char × Bool) (l : List (Char × Bool)) (c : Char) :
    refExactCount (x :: l) c = (if x.1 == c && x.2 then 1 else 0) + refExactCount l c := by
  unfold refExactCount
  rw [List.filter_cons]
  split <;> simp [Nat.add_comm]

theorem refExactCount_eq_markCount (sol : Word) (c : Char) :
    ∀ (g : Word) (i : Nat),
      refExactCount (refAnnotate sol i g) c = markCount (pass1Go sol i g) c := by
  intro g
  induction g with
  | nil => intro i; simp [refAnnotate, pass1Go, refExactCount, markCount]
  | cons g0 rest ih =>
    intro i
    rw [refAnnotate, refExactCount_cons, markCount_pass1_cons, ih]

theorem refAnnotate_eq_map_pass1 (sol : Word) :
    ∀ (g : Word) (i : Nat),
      (pass1Go sol i g).map (fun p => (p.1, p.2 == some LetterPosition.correct)) =
        refAnnotate sol i g := by
  intro g
  induction g with
  | nil => intro i; simp [refAnnotate, pass1Go]
  | cons g0 rest ih =>
    intro i
    rw [pass1Go, refAnnotate, List.map_cons, ih]
    rw [show ((g0, if sol.contains g0 && (sol.get? i == some g0)
        then some LetterPosition.correct else Option.none) : ScoredLetter).2 =
        (if sol.contains g0 && (sol.get? i == some g0)
        then some LetterPosition.correct else Option.none) from rfl]
    rw [pass1_mark_beq_correct]

theorem pass1_prop (sol : Word) (g : Word) (i j : Nat) (c : Char)
    (m : Option LetterPosition) (h : (pass1Go sol i g).get? j = some (c, m)) :
    (m = some LetterPosition.correct ∨ m = Option.none) ∧
    (m = some LetterPosition.correct ↔ sol.get? (i + j) = some c) := by
  rw [pass1Go_get?] at h
  cases hg : g.get? j with
  | none => rw [hg] at h; cases h
  | some c' =>
    rw [hg] at h
    simp only [Option.map_some', Option.some.injEq, Prod.mk.injEq] at h
    obtain ⟨hc, hm⟩ := h
    rw [hc] at hm
    subst hm
    by_cases hcond : (sol.contains c && (sol.get? (i + j) == some c)) = true
    · rw [if_pos hcond]
      have hbeq : (sol.get? (i + j) == some c) = true := by
        rw [mark_cond_eq] at hcond; exact hcond
      exact ⟨Or.inl rfl, ⟨fun _ => by simpa using hbeq, fun _ => rfl⟩⟩
    · rw [if_neg hcond]
      have hbeq : (sol.get? (i + j) == some c) = false := by
        rw [mark_cond_eq] at hcond
        simpa using hcond
      refine ⟨Or.inr rfl, ⟨fun hco => (by cases hco), fun hge => ?_⟩⟩
      rw [hge] at hbeq
      simp at hbeq

theorem verdicts_append (a b : List ScoredLetter) :
    verdicts (a ++ b) = verdicts a ++ verdicts b := by
  simp [verdicts]

theorem pass2Go_cons_skip (sol : Word) (done : List ScoredLetter) (c0 : Char)
    (m : Option LetterPosition) (rest : List ScoredLetter)
    (h : (!(sol.contains c0) || (sol.get? done.length == some c0)) = true) :
    pass2Go sol done ((c0, m) :: rest) = pass2Go sol (done ++ [(c0, m)]) rest := by
  rw [pass2Go, if_pos h]

theorem pass2Go_cons_mark (sol : Word) (done : List ScoredLetter) (c0 : Char)
    (m : Option LetterPosition) (rest : List ScoredLetter)
    (h1 : (!(sol.contains c0) || (sol.get? done.length == some c0)) = false)
    (h2 : countIn sol c0 > markCount (done ++ (c0, m) :: rest) c0) :
    pass2Go sol done ((c0, m) :: rest) =
      pass2Go sol (done ++ [(c0, some LetterPosition.wrongPlacement)]) rest := by
  rw [pass2Go, if_neg (by rw [h1]; exact Bool.false_ne_true), if_pos h2]

theorem pass2Go_cons_keep (sol : Word) (done : List ScoredLetter) (c0 : Char)
    (m : Option LetterPosition) (rest : List ScoredLetter)
    (h1 : (!(sol.contains c0) || (sol.get? done.length == some c0)) = false)
    (h2 : ¬ countIn sol c0 > markCount (done ++ (c0, m) :: rest) c0) :
    pass2Go sol done ((c0, m) :: rest) = pass2Go sol (done ++ [(c0, m)]) rest := by
  rw [pass2Go, if_neg (by rw [h1]; exact Bool.false_ne_true), if_neg h2]

theorem refPass2_cons_exact (pool : Char → Nat) (c0 : Char) (l : List (Char × Bool)) :
    refPass2 pool ((c0, true) :: l) = LetterVerdict.correct :: refPass2 pool l := by
  simp [refPass2]

theorem refPass2_cons_present (pool : Char → Nat) (c0 : Char) (l : List (Char × Bool))
    (h : 0 < pool c0) :
    refPass2 pool ((c0, false) :: l) =
      LetterVerdict.present :: refPass2 (fun x => if x = c0 then pool c0 - 1 else pool x) l := by
  simp [refPass2, h]

theorem refPass2_cons_absent (pool : Char → Nat) (c0 : Char) (l : List (Char × Bool))
    (h : pool c0 = 0) :
    refPass2 pool ((c0, false) :: l) = LetterVerdict.absent :: refPass2 pool l := by
  simp [refPass2, h]

theorem pass2_ref (sol : Word) :
    ∀ (todo done : List ScoredLetter) (pool : Char → Nat),
      (∀ j c m, todo.get? j = some (c, m) →
          (m = some LetterPosition.correct ∨ m = Option.none) ∧
          (m = some LetterPosition.correct ↔ sol.get? (done.length + j) = some c)) →
      (∀ c, pool c + markCount (done ++ todo) c = countIn sol c) →
      verdicts (pass2Go sol done todo) =
        verdicts done ++
          refPass2 pool (todo.map (fun p => (p.1, p.2 == some LetterPosition.correct))) := by
  intro todo
  induction todo with
  | nil =>
    intro done pool _ _
    simp [pass2Go, refPass2]
  | cons hd rest ih =>
    obtain ⟨c0, m⟩ := hd
    intro done pool H1 H2
    have Hhd := H1 0 c0 m rfl
    rw [Nat.add_zero] at Hhd
    have H1s : ∀ (x : ScoredLetter) (j : Nat) (c : Char) (m' : Option LetterPosition),
        rest.get? j = some (c, m') →
        (m' = some LetterPosition.correct ∨ m' = Option.none) ∧
        (m' = some LetterPosition.correct ↔ sol.get? ((done ++ [x]).length + j) = some c) := by
      intro x j c m' h
      have h2 := H1 (j + 1) c m' (by simpa using h)
      have hlen : done.length + (j + 1) = (done ++ [x]).length + j := by
        simp [List.length_append]
        omega
      rw [hlen] at h2
      exact h2
    by_cases hex : sol.get? done.length = some c0
    · -- exact match: pass 1 already marked it correct, both sides skip/emit correct
      have hm : m = some LetterPosition.correct := Hhd.2.mpr hex
      subst hm
      have hcond1 : (!(sol.contains c0) || (sol.get? done.length == some c0)) = true := by
        rw [hex]
        simp
      rw [pass2Go_cons_skip sol done c0 _ rest hcond1]
      rw [List.map_cons]
      rw [show ((c0, some LetterPosition.correct) : ScoredLetter).2 =
          some LetterPosition.correct from rfl]
      rw [show ((some LetterPosition.correct : Option LetterPosition) ==
          some LetterPosition.correct) = true by simp]
      rw [refPass2_cons_exact]
      rw [ih (done ++ [(c0, some LetterPosition.correct)]) pool (H1s _) ?hp]
      case hp =>
        intro c
        rw [List.append_assoc]
        simpa using H2 c
      rw [verdicts_append]
      simp [verdicts, toVerdict]
    · -- not an exact match: pass 1 left it unmarked
      have hm : m = Option.none := by
        cases Hhd.1 with
        | inl h => exact absurd (Hhd.2.mp h) hex
        | inr h => exact h
      subst hm
      have hbeqf : (sol.get? done.length == some c0) = false := by
        simpa using hex
      rw [List.map_cons]
      rw [show ((c0, Option.none) : ScoredLetter).2 = Option.none from rfl]
      rw [show ((Option.none : Option LetterPosition) ==
          some LetterPosition.correct) = false from rfl]
      by_cases hcont : sol.contains c0 = true
      · have hcond1 : (!(sol.contains c0) || (sol.get? done.length == some c0)) = false := by
          rw [hcont, hbeqf]
          rfl
        by_cases hcnt : countIn sol c0 > markCount (done ++ (c0, Option.none) :: rest) c0
        · -- pool still has an occurrence: mark present
          rw [pass2Go_cons_mark sol done c0 _ rest hcond1 hcnt]
          have hpool : 0 < pool c0 := by
            have := H2 c0
            omega
          rw [refPass2_cons_present pool c0 _ hpool]
          rw [ih (done ++ [(c0, some LetterPosition.wrongPlacement)])
            (fun x => if x = c0 then pool c0 - 1 else pool x) (H1s _) ?hp2]
          case hp2 =>
            intro c
            rw [List.append_assoc, List.singleton_append]
            have h2 := H2 c
            rw [markCount_append, markCount_cons] at h2 ⊢
            beta_reduce
            by_cases hceq : c = c0
            · rw [if_pos hceq]
              have hbt : (c0 == c) = true := by
                rw [hceq]
                simp
              simp only [hbt] at h2 ⊢
              simp at h2 ⊢
              rw [hceq] at h2 ⊢
              omega
            · rw [if_neg hceq]
              have hbf : (c0 == c) = false := by
                simp
                exact fun hh => hceq hh.symm
              simp only [hbf] at h2 ⊢
              simp at h2 ⊢
              omega
          rw [verdicts_append]
          simp [verdicts, toVerdict]
        · -- pool exhausted: stays unmarked, reference yields absent
          rw [pass2Go_cons_keep sol done c0 _ rest hcond1 hcnt]
          have hpool : pool c0 = 0 := by
            have := H2 c0
            omega
          rw [refPass2_cons_absent pool c0 _ hpool]
          rw [ih (done ++ [(c0, Option.none)]) pool (H1s _) ?hp3]
          case hp3 =>
            intro c
            rw [List.append_assoc]
            simpa using H2 c
          rw [verdicts_append]
          simp [verdicts, toVerdict]
      · -- letter not in the solution at all
        have hcontf : sol.contains c0 = false := by
          cases h : sol.contains c0 with
          | false => rfl
          | true => exact absurd h hcont
        have hcond1 : (!(sol.contains c0) || (sol.get? done.length == some c0)) = true := by
          rw [hcontf]
          rfl
        rw [pass2Go_cons_skip sol done c0 _ rest hcond1]
        have hpool : pool c0 = 0 := by
          have h2 := H2 c0
          have hz : countIn sol c0 = 0 := countIn_eq_zero hcontf
          omega
        rw [refPass2_cons_absent pool c0 _ hpool]
        rw [ih (done ++ [(c0, Option.none)]) pool (H1s _) ?hp4]
        case hp4 =>
          intro c
          rw [List.append_assoc]
          simpa using H2 c
        rw [verdicts_append]
        simp [verdicts, toVerdict]

theorem evaluate_eq_ref (sol g : Word) :
    verdicts (evaluateGuess sol g) = refEvaluate sol g := by
  unfold evaluateGuess refEvaluate
  rw [pass2_ref sol (pass1Go sol 0 g) []
    (fun c => countIn sol c - refExactCount (refAnnotate sol 0 g) c) ?h1 ?h2]
  · rw [refAnnotate_eq_map_pass1]
    simp [verdicts]
  case h1 =>
    intro j c m h
    have := pass1_prop sol g 0 j c m h
    simpa using this
  case h2 =>
    intro c
    rw [List.nil_append]
    beta_reduce
    rw [refExactCount_eq_markCount]
    have := pass1_markCount_le sol c g 0
    rw [List.drop_zero] at this
    omega

/-- Soundness property of one marked letter of a scored guess: marked values
    are never the gray tag, always concern a letter of the solution, and are
    green exactly on exact matches. -/
def MarkOk (sol : Word) (i : Nat) (c : Char) (v : LetterPosition) : Prop :=
  v ≠ LetterPosition.none ∧ sol.contains c = true ∧
    (v = LetterPosition.correct ↔ sol.get? i = some c)

theorem get?_snoc {α : Type} (l : List α) (x : α) (j : Nat) :
    (l ++ [x]).get? j =
      if j < l.length then l.get? j
      else if j = l.length then some x else Option.none := by
  by_cases h1 : j < l.length
  · rw [if_pos h1, List.get?_append h1]
  · rw [if_neg h1]
    by_cases h2 : j = l.length
    · rw [if_pos h2, h2]
      rw [List.get?_eq_getElem?]
      exact List.getElem?_concat_length l x
    · rw [if_neg h2]
      apply List.get?_eq_none.mpr
      rw [List.length_append]
      simp only [List.length_singleton]
      omega

theorem pass2_marks (sol : Word) :
    ∀ (todo done : List ScoredLetter),
      (∀ j c v, done.get? j = some (c, some v) → MarkOk sol j c v) →
      (∀ j c m, todo.get? j = some (c, m) →
          (m = some LetterPosition.correct ∨ m = Option.none) ∧
          (m = some LetterPosition.correct ↔ sol.get? (done.length + j) = some c)) →
      ∀ j c v, (pass2Go sol done todo).get? j = some (c, some v) → MarkOk sol j c v := by
  intro todo
  induction todo with
  | nil =>
    intro done Hd _ j c v h
    exact Hd j c v h
  | cons hd rest ih =>
    obtain ⟨c0, m⟩ := hd
    intro done Hd Ht
    have Hhd := Ht 0 c0 m rfl
    rw [Nat.add_zero] at Hhd
    have Hts : ∀ (x : ScoredLetter) (j : Nat) (c : Char) (m' : Option LetterPosition),
        rest.get? j = some (c, m') →
        (m' = some LetterPosition.correct ∨ m' = Option.none) ∧
        (m' = some LetterPosition.correct ↔ sol.get? ((done ++ [x]).length + j) = some c) := by
      intro x j c m' h
      have h2 := Ht (j + 1) c m' (by simpa using h)
      have hlen : done.length + (j + 1) = (done ++ [x]).length + j := by
        simp [List.length_append]
        omega
      rw [hlen] at h2
      exact h2
    have Hds : ∀ (x : ScoredLetter),
        (∀ w, (done ++ [x]).get? done.length = some (x.1, some w) → MarkOk sol done.length x.1 w) →
        ∀ j c v, (done ++ [x]).get? j = some (c, some v) → MarkOk sol j c v := by
      intro x Hx j c v h
      rw [get?_snoc] at h
      by_cases h1 : j < done.length
      · rw [if_pos h1] at h
        exact Hd j c v h
      · rw [if_neg h1] at h
        by_cases h2 : j = done.length
        · rw [if_pos h2] at h
          have hx : x = (c, some v) := Option.some.inj h
          subst h2
          have := Hx v
          rw [hx] at this
          exact this (by rw [get?_snoc, if_neg h1, if_pos rfl])
        · rw [if_neg h2] at h
          cases h
    by_cases hex : sol.get? done.length = some c0
    · have hm : m = some LetterPosition.correct := Hhd.2.mpr hex
      subst hm
      have hcond1 : (!(sol.contains c0) || (sol.get? done.length == some c0)) = true := by
        rw [hex]
        simp
      rw [pass2Go_cons_skip sol done c0 _ rest hcond1]
      apply ih
      · apply Hds
        intro w hw
        rw [get?_snoc, if_neg (by omega), if_pos rfl] at hw
        have hww : w = LetterPosition.correct :=
          (Option.some.inj (congrArg Prod.snd (Option.some.inj hw))).symm
        subst hww
        exact ⟨(by intro hcon; cases hcon), contains_of_get? hex, ⟨fun _ => hex, fun _ => rfl⟩⟩
      · exact Hts _
    · have hm : m = Option.none := by
        cases Hhd.1 with
        | inl h => exact absurd (Hhd.2.mp h) hex
        | inr h => exact h
      subst hm
      have hbeqf : (sol.get? done.length == some c0) = false := by
        simpa using hex
      by_cases hcont : sol.contains c0 = true
      · have hcond1 : (!(sol.contains c0) || (sol.get? done.length == some c0)) = false := by
          rw [hcont, hbeqf]
          rfl
        by_cases hcnt : countIn sol c0 > markCount (done ++ (c0, Option.none) :: rest) c0
        · rw [pass2Go_cons_mark sol done c0 _ rest hcond1 hcnt]
          apply ih
          · apply Hds
            intro w hw
            rw [get?_snoc, if_neg (by omega), if_pos rfl] at hw
            have hww : w = LetterPosition.wrongPlacement :=
              (Option.some.inj (congrArg Prod.snd (Option.some.inj hw))).symm
            subst hww
            refine ⟨(by intro hcon; cases hcon), hcont, ⟨fun hco => (by cases hco), fun hge => ?_⟩⟩
            exact absurd hge hex
          · exact Hts _
        · rw [pass2Go_cons_keep sol done c0 _ rest hcond1 hcnt]
          apply ih
          · apply Hds
            intro w hw
            rw [get?_snoc, if_neg (by omega), if_pos rfl] at hw
            simp at hw
          · exact Hts _
      · have hcontf : sol.contains c0 = false := by
          cases h : sol.contains c0 with
          | false => rfl
          | true => exact absurd h hcont
        have hcond1 : (!(sol.contains c0) || (sol.get? done.length == some c0)) = true := by
          rw [hcontf]
          rfl
        rw [pass2Go_cons_skip sol done c0 _ rest hcond1]
        apply ih
        · apply Hds
          intro w hw
          rw [get?_snoc, if_neg (by omega), if_pos rfl] at hw
          simp at hw
        · exact Hts _

theorem evaluate_marks (sol g : Word) :
    ∀ j c v, (evaluateGuess sol g).get? j = some (c, some v) → MarkOk sol j c v := by
  unfold evaluateGuess
  apply pass2_marks
  · intro j c v h
    cases h
  · intro j c m h
    have := pass1_prop sol g 0 j c m h
    simpa using this

theorem pass2_fst (sol : Word) :
    ∀ (todo done : List ScoredLetter),
      (pass2Go sol done todo).map Prod.fst = done.map Prod.fst ++ todo.map Prod.fst := by
  intro todo
  induction todo with
  | nil => intro done; simp [pass2Go]
  | cons hd rest ih =>
    obtain ⟨c0, m⟩ := hd
    intro done
    rw [pass2Go]
    split
    · rw [ih]
      simp
    · split
      · rw [ih]
        simp
      · rw [ih]
        simp

theorem evaluate_fst (sol g : Word) : (evaluateGuess sol g).map Prod.fst = g := by
  unfold evaluateGuess
  rw [pass2_fst]
  simp [pass1_fst]

theorem evaluate_length (sol g : Word) : (evaluateGuess sol g).length = g.length := by
  have h := congrArg List.length (evaluate_fst sol g)
  simpa using h

theorem updateKnownGo_lt (c : Char) (i : Nat) :
    ∀ (pg : List ScoredLetter) (i0 : Nat) (kp : KPMap), i < i0 →
      updateKnownGo i0 kp pg (c, i) = kp (c, i) := by
  intro pg
  induction pg with
  | nil => intro i0 kp _; rfl
  | cons hd rest ih =>
    obtain ⟨l, m⟩ := hd
    intro i0 kp hlt
    simp only [updateKnownGo]
    rw [ih (i0 + 1) _ (by omega)]
    cases m with
    | none => rfl
    | some pos =>
      simp only
      rw [if_neg (by intro hk; cases hk; omega)]

theorem updateKnownGo_get (c : Char) :
    ∀ (pg : List ScoredLetter) (i0 j : Nat) (kp : KPMap),
      updateKnownGo i0 kp pg (c, i0 + j) =
        match pg.get? j with
        | some (l, some v) => if c = l then some v else kp (c, i0 + j)
        | some (_, Option.none) => kp (c, i0 + j)
        | Option.none => kp (c, i0 + j) := by
  intro pg
  induction pg with
  | nil => intro i0 j kp; rfl
  | cons hd rest ih =>
    obtain ⟨l, m⟩ := hd
    intro i0 j kp
    cases j with
    | zero =>
      rw [Nat.add_zero]
      simp only [updateKnownGo]
      rw [updateKnownGo_lt c i0 rest (i0 + 1) _ (by omega)]
      cases m with
      | none => rfl
      | some pos =>
        show (if ((c, i0) : Char × Nat) = (l, i0) then some pos else kp (c, i0)) =
          if c = l then some pos else kp (c, i0)
        by_cases hc : c = l
        · rw [if_pos (by rw [hc] : ((c, i0) : Char × Nat) = (l, i0)), if_pos hc]
        · rw [if_neg (fun hk => hc (congrArg Prod.fst hk)), if_neg hc]
    | succ j' =>
      simp only [updateKnownGo]
      have harith : i0 + (j' + 1) = (i0 + 1) + j' := by omega
      rw [harith, ih (i0 + 1) j']
      have hkp : (match m with
           | some pos => fun key => if key = (l, i0) then some pos else kp key
           | Option.none => kp) ((c, i0 + 1 + j') : Char × Nat) = kp (c, i0 + 1 + j') := by
        cases m with
        | none => rfl
        | some pos =>
          show (if ((c, i0 + 1 + j') : Char × Nat) = (l, i0) then some pos
            else kp (c, i0 + 1 + j')) = kp (c, i0 + 1 + j')
          rw [if_neg ?hne]
          case hne =>
            intro hk
            have h5 : i0 + 1 + j' = i0 := congrArg Prod.snd hk
            omega
      cases hr : rest.get? j' with
      | none => simp only [List.get?, hr, hkp]
      | some p =>
        obtain ⟨l', m'⟩ := p
        cases m' with
        | none => simp only [List.get?, hr, hkp]
        | some v => simp only [List.get?, hr, hkp]

theorem updateKnown_lookup (pg : List ScoredLetter) (kp : KPMap) (c : Char) (i : Nat) :
    updateKnown pg kp (c, i) =
      match pg.get? i with
      | some (l, some v) => if c = l then some v else kp (c, i)
      | some (_, Option.none) => kp (c, i)
      | Option.none => kp (c, i) := by
  unfold updateKnown
  have h := updateKnownGo_get c pg 0 i kp
  rw [Nat.zero_add] at h
  exact h

/-- Soundness of all markings of one recorded guess. -/
def GuessOk (sol : Word) (pg : List ScoredLetter) : Prop :=
  ∀ j c v, pg.get? j = some (c, some v) → MarkOk sol j c v

/-- Relation between the accumulated knowledge maps and the recorded
    guesses, maintained by every submission. -/
def HistInv (s : App) : Prop :=
  (∀ pg ∈ s.guesses, GuessOk s.solution pg) ∧
  (∀ c i v, s.knownPositions (c, i) = some v ↔
      ∃ pg ∈ s.guesses, pg.get? i = some (c, some v)) ∧
  (∀ c, s.badCharacters c = true ↔
      (s.solution.contains c = false ∧ ∃ pg ∈ s.guesses, ∃ p ∈ pg, p.1 = c))

theorem markOk_unique {sol : Word} {i : Nat} {c : Char} {v v' : LetterPosition}
    (h1 : MarkOk sol i c v) (h2 : MarkOk sol i c v') : v = v' := by
  obtain ⟨hn1, -, hiff1⟩ := h1
  obtain ⟨hn2, -, hiff2⟩ := h2
  cases v with
  | none => exact absurd rfl hn1
  | correct =>
    cases v' with
    | none => exact absurd rfl hn2
    | correct => rfl
    | wrongPlacement => cases hiff2.mpr (hiff1.mp rfl)
  | wrongPlacement =>
    cases v' with
    | none => exact absurd rfl hn2
    | correct => cases hiff1.mpr (hiff2.mp rfl)
    | wrongPlacement => rfl

theorem submit_reject {s : App}
    (h : s.currentGuessInput.length ≠ 5 ∨ s.wordList.contains s.currentGuessInput = false) :
    submitGuess s = s := by
  unfold submitGuess
  rw [if_pos h]

theorem submit_accept {s : App}
    (h : ¬(s.currentGuessInput.length ≠ 5 ∨
        s.wordList.contains s.currentGuessInput = false)) :
    submitGuess s =
      { s with
        currentGuessInput := []
        guesses := s.guesses ++ [evaluateGuess s.solution s.currentGuessInput]
        knownPositions :=
          updateKnown (evaluateGuess s.solution s.currentGuessInput) s.knownPositions
        badCharacters := fun c =>
          s.badCharacters c || (s.currentGuessInput.contains c && !(s.solution.contains c))
        exit :=
          if eqIgnoreAsciiCase s.solution s.currentGuessInput
              || (s.guesses ++ [evaluateGuess s.solution s.currentGuessInput]).length == 6
          then true else s.exit } := by
  unfold submitGuess
  rw [if_neg h]

theorem exists_fst_iff_mem (pg : List ScoredLetter) (g : Word) (c : Char)
    (hfst : pg.map Prod.fst = g) : (∃ p ∈ pg, p.1 = c) ↔ c ∈ g := by
  constructor
  · intro ⟨p, hp, hpc⟩
    rw [← hfst]
    exact List.mem_map.mpr ⟨p, hp, hpc⟩
  · intro hc
    rw [← hfst] at hc
    obtain ⟨p, hp, hpc⟩ := List.mem_map.mp hc
    exact ⟨p, hp, hpc⟩

theorem histInv_playWord {s : App} (h : HistInv s) (w : Word) :
    HistInv (playWord s w) := by
  unfold playWord
  by_cases hg : ({ s with currentGuessInput := w } : App).currentGuessInput.length ≠ 5 ∨
      ({ s with currentGuessInput := w } : App).wordList.contains
        ({ s with currentGuessInput := w } : App).currentGuessInput = false
  · rw [submit_reject hg]
    exact h
  · rw [submit_accept hg]
    obtain ⟨hguess, hkp, hbad⟩ := h
    refine ⟨?g1, ?g2, ?g3⟩
    case g1 =>
      intro pg hmem
      rcases List.mem_append.mp hmem with hold | hnew
      · exact hguess pg hold
      · rw [List.mem_singleton.mp hnew]
        intro j c v hj
        exact evaluate_marks s.solution w j c v hj
    case g2 =>
      intro c i v
      show updateKnown (evaluateGuess s.solution w) s.knownPositions (c, i) = some v ↔ _
      rw [updateKnown_lookup]
      cases hpg : (evaluateGuess s.solution w).get? i with
      | none =>
        simp only
        rw [hkp c i v]
        constructor
        · intro ⟨pg0, hm, hp⟩
          exact ⟨pg0, List.mem_append.mpr (Or.inl hm), hp⟩
        · intro ⟨pg0, hm, hp⟩
          rcases List.mem_append.mp hm with hold | hnew
          · exact ⟨pg0, hold, hp⟩
          · rw [List.mem_singleton.mp hnew] at hp
            rw [hp] at hpg
            cases hpg
      | some p =>
        obtain ⟨l, m⟩ := p
        cases m with
        | none =>
          simp only
          rw [hkp c i v]
          constructor
          · intro ⟨pg0, hm, hp⟩
            exact ⟨pg0, List.mem_append.mpr (Or.inl hm), hp⟩
          · intro ⟨pg0, hm, hp⟩
            rcases List.mem_append.mp hm with hold | hnew
            · exact ⟨pg0, hold, hp⟩
            · rw [List.mem_singleton.mp hnew] at hp
              rw [hp] at hpg
              have := congrArg Prod.snd (Option.some.inj hpg)
              cases this
        | some v0 =>
          simp only
          by_cases hcl : c = l
          · rw [if_pos hcl]
            subst hcl
            constructor
            · intro hv
              have hvv : v0 = v := Option.some.inj hv
              subst hvv
              exact ⟨evaluateGuess s.solution w,
                List.mem_append.mpr (Or.inr (List.mem_singleton.mpr rfl)), hpg⟩
            · intro ⟨pg0, hm, hp⟩
              rcases List.mem_append.mp hm with hold | hnew
              · have hOld : s.knownPositions (c, i) = some v :=
                  (hkp c i v).mpr ⟨pg0, hold, hp⟩
                have mk1 : MarkOk s.solution i c v := hguess pg0 hold i c v hp
                have mk2 : MarkOk s.solution i c v0 :=
                  evaluate_marks s.solution w i c v0 hpg
                rw [markOk_unique mk2 mk1]
              · rw [List.mem_singleton.mp hnew] at hp
                rw [hp] at hpg
                have := congrArg Prod.snd (Option.some.inj hpg)
                have hvv : some v = some v0 := this
                rw [Option.some.inj hvv]
          · rw [if_neg hcl]
            rw [hkp c i v]
            constructor
            · intro ⟨pg0, hm, hp⟩
              exact ⟨pg0, List.mem_append.mpr (Or.inl hm), hp⟩
            · intro ⟨pg0, hm, hp⟩
              rcases List.mem_append.mp hm with hold | hnew
              · exact ⟨pg0, hold, hp⟩
              · rw [List.mem_singleton.mp hnew] at hp
                rw [hp] at hpg
                have := congrArg Prod.fst (Option.some.inj hpg)
                exact absurd this hcl
    case g3 =>
      intro c
      show (s.badCharacters c || (w.contains c && !(s.solution.contains c))) = true ↔ _
      rw [Bool.or_eq_true, Bool.and_eq_true, hbad c]
      have hfst := evaluate_fst s.solution w
      constructor
      · intro hc
        rcases hc with ⟨hold1, pg0, hm, hp⟩ | ⟨hcw, hcs⟩
        · exact ⟨hold1, pg0, List.mem_append.mpr (Or.inl hm), hp⟩
        · have hcs' : s.solution.contains c = false := by
            cases hh : s.solution.contains c with
            | false => rfl
            | true => rw [hh] at hcs; cases hcs
          refine ⟨hcs', evaluateGuess s.solution w,
            List.mem_append.mpr (Or.inr (List.mem_singleton.mpr rfl)), ?_⟩
          exact (exists_fst_iff_mem _ w c hfst).mpr (contains_iff.mp hcw)
      · intro ⟨hcs, pg0, hm, hp⟩
        rcases List.mem_append.mp hm with hold | hnew
        · exact Or.inl ⟨hcs, pg0, hold, hp⟩
        · rw [List.mem_singleton.mp hnew] at hp
          refine Or.inr ⟨?_, ?_⟩
          · exact contains_iff.mpr ((exists_fst_iff_mem _ w c hfst).mp hp)
          · rw [hcs]
            rfl

theorem histInv_init (sol : Word) (wl : List Word) : HistInv (initApp sol wl) := by
  refine ⟨?_, ?_, ?_⟩
  · intro pg hmem
    cases hmem
  · intro c i v
    constructor
    · intro hv
      cases hv
    · intro ⟨pg, hm, _⟩
      cases hm
  · intro c
    constructor
    · intro hv
      cases hv
    · intro ⟨_, pg, hm, _⟩
      cases hm

theorem histInv_playWords (sol : Word) (wl : List Word) (ws : List Word) :
    HistInv (playWords (initApp sol wl) ws) := by
  have hstep : ∀ (ws' : List Word) (s : App), HistInv s → HistInv (playWords s ws') := by
    intro ws'
    induction ws' with
    | nil => intro s hs; exact hs
    | cons w rest ih =>
      intro s hs
      exact ih (playWord s w) (histInv_playWord hs w)
  exact hstep ws _ (histInv_init sol wl)

theorem submit_solution (s : App) : (submitGuess s).solution = s.solution := by
  unfold submitGuess
  split
  · rfl
  · rfl

theorem playWord_solution (s : App) (w : Word) : (playWord s w).solution = s.solution :=
  submit_solution _

theorem playWords_solution (sol : Word) (wl ws : List Word) :
    (playWords (initApp sol wl) ws).solution = sol := by
  have hstep : ∀ (ws' : List Word) (s : App), (playWords s ws').solution = s.solution := by
    intro ws'
    induction ws' with
    | nil => intro s; rfl
    | cons w rest ih =>
      intro s
      show (playWords (playWord s w) rest).solution = s.solution
      rw [ih (playWord s w), playWord_solution]
  rw [hstep ws _]
  rfl

theorem kp_entry_sound {sol : Word} {wl ws : List Word} {c : Char} {i : Nat}
    {v : LetterPosition}
    (hv : (playWords (initApp sol wl) ws).knownPositions (c, i) = some v) :
    MarkOk sol i c v := by
  obtain ⟨hguess, hkp, hbad⟩ := histInv_playWords sol wl ws
  obtain ⟨pg, hm, hp⟩ := (hkp c i v).mp hv
  have mk := hguess pg hm i c v hp
  rw [playWords_solution sol wl ws] at mk
  exact mk

theorem bad_sound {sol : Word} {wl ws : List Word} {c : Char}
    (hb : (playWords (initApp sol wl) ws).badCharacters c = true) :
    sol.contains c = false := by
  obtain ⟨hguess, hkp, hbad⟩ := histInv_playWords sol wl ws
  have h2 := (hbad c).mp hb
  rw [playWords_solution sol wl ws] at h2
  exact h2.1

/-- C9: after any sequence of submissions, an entry of the known-positions
    map at key (letter, index) holds Correct iff the secret letter at that
    index is that letter, holds WrongPlacement only if the letter occurs in
    the secret but not at that index, and the letter of any entry is never
    in the bad-characters set, so the bad-characters check cannot shadow a
    recorded position verdict. -/
theorem claimC9 (sol : Word) (wl ws : List Word) (c : Char) (i : Nat)
    (v : LetterPosition)
    (hv : (playWords (initApp sol wl) ws).knownPositions (c, i) = some v) :
    (v = LetterPosition.correct ↔ sol.get? i = some c) ∧
    (v = LetterPosition.wrongPlacement →
      sol.contains c = true ∧ sol.get? i ≠ some c) ∧
    (playWords (initApp sol wl) ws).badCharacters c = false := by
  have mk := kp_entry_sound hv
  obtain ⟨hn, hcont, hiff⟩ := mk
  refine ⟨hiff, ?_, ?_⟩
  · intro hwp
    refine ⟨hcont, ?_⟩
    intro hge
    have h2 := hiff.mpr hge
    rw [h2] at hwp
    cases hwp
  · cases hb : (playWords (initApp sol wl) ws).badCharacters c with
    | false => rfl
    | true =>
      have h3 := bad_sound hb
      rw [h3] at hcont
      cases hcont

/-- Witness for C9 at a concrete run: after submitting ROUND against
    secret CRANE, the entry at (R, 0) is WrongPlacement, and the theorem's
    conclusions hold there. -/
theorem claimC9_witness :
    ((playWords (initApp wCRANE [wROUND]) [wROUND]).knownPositions ('R', 0) =
        some LetterPosition.wrongPlacement) ∧
    ((LetterPosition.wrongPlacement = LetterPosition.correct ↔
        wCRANE.get? 0 = some 'R') ∧
      (LetterPosition.wrongPlacement = LetterPosition.wrongPlacement →
        wCRANE.contains 'R' = true ∧ wCRANE.get? 0 ≠ some 'R') ∧
      (playWords (initApp wCRANE [wROUND]) [wROUND]).badCharacters 'R' = false) :=
  ⟨by decide, claimC9 wCRANE [wROUND] [wROUND] 'R' 0 LetterPosition.wrongPlacement
    (by decide)⟩

theorem bad_of_kp_entry_false {sol : Word} {wl ws : List Word} {c : Char} {i : Nat}
    {v : LetterPosition}
    (hv : (playWords (initApp sol wl) ws).knownPositions (c, i) = some v) :
    (playWords (initApp sol wl) ws).badCharacters c = false := by
  cases hb : (playWords (initApp sol wl) ws).badCharacters c with
  | false => rfl
  | true =>
    have h1 := (kp_entry_sound hv).2.1
    rw [bad_sound hb] at h1
    cases h1

/-- C2 counterexample state: secret CRANE, single submitted guess ROUND. -/
def c2App : App := playWords (initApp wCRANE [wROUND]) [wROUND]

/-- C2 as stated is false: in `c2App` the letter R appears in a submitted
    guess and was even scored Present (at position 0), yet the accumulator's
    answer for R at position 2 is the neutral `Option.none` — the claim
    demands Present there, and reserves `Option.none` for letters that never
    appeared. -/
theorem claimC2_counterexample :
    colorAnswer c2App 'R' 2 = Option.none ∧
    (∃ pg ∈ c2App.guesses, ∃ p ∈ pg, p = ('R', some LetterPosition.wrongPlacement)) := by
  decide

/-- Reduction of the accumulator answer when the letter is not bad. -/
theorem colorAnswer_badFalse {s : App} {c : Char} (hb : s.badCharacters c = false)
    (i : Nat) : colorAnswer s c i = s.knownPositions (c, i) := by
  unfold colorAnswer
  rw [if_neg (by rw [hb]; exact Bool.false_ne_true)]

/-- Reduction of the accumulator answer when the letter is bad. -/
theorem colorAnswer_badTrue {s : App} {c : Char} (hb : s.badCharacters c = true)
    (i : Nat) : colorAnswer s c i = some LetterPosition.none := by
  unfold colorAnswer
  rw [if_pos hb]

/-- C2 amended: the accumulator's answer at (letter, position) is Correct or
    Present exactly when some submitted guess has that letter scored Correct
    resp. Present at that very position, and is Absent exactly when the letter
    is missing from the secret but occurs somewhere in some submitted guess;
    otherwise it is neutral. -/
theorem claimC2_amended (sol : Word) (wl ws : List Word) (c : Char) (i : Nat) :
    (colorAnswer (playWords (initApp sol wl) ws) c i = some LetterPosition.correct ↔
      ∃ pg ∈ (playWords (initApp sol wl) ws).guesses,
        pg.get? i = some (c, some LetterPosition.correct)) ∧
    (colorAnswer (playWords (initApp sol wl) ws) c i = some LetterPosition.wrongPlacement ↔
      ∃ pg ∈ (playWords (initApp sol wl) ws).guesses,
        pg.get? i = some (c, some LetterPosition.wrongPlacement)) ∧
    (colorAnswer (playWords (initApp sol wl) ws) c i = some LetterPosition.none ↔
      (sol.contains c = false ∧
        ∃ pg ∈ (playWords (initApp sol wl) ws).guesses, ∃ p ∈ pg, p.1 = c)) := by
  obtain ⟨hguess, hkp, hbad⟩ := histInv_playWords sol wl ws
  have hsol := playWords_solution sol wl ws
  rw [hsol] at hbad
  refine ⟨?_, ?_, ?_⟩
  · constructor
    · intro h
      cases hb : (playWords (initApp sol wl) ws).badCharacters c with
      | true =>
        rw [colorAnswer_badTrue hb] at h
        cases Option.some.inj h
      | false =>
        rw [colorAnswer_badFalse hb] at h
        exact (hkp c i LetterPosition.correct).mp h
    · intro hex
      have hkv := (hkp c i LetterPosition.correct).mpr hex
      rw [colorAnswer_badFalse (bad_of_kp_entry_false hkv), hkv]
  · constructor
    · intro h
      cases hb : (playWords (initApp sol wl) ws).badCharacters c with
      | true =>
        rw [colorAnswer_badTrue hb] at h
        cases Option.some.inj h
      | false =>
        rw [colorAnswer_badFalse hb] at h
        exact (hkp c i LetterPosition.wrongPlacement).mp h
    · intro hex
      have hkv := (hkp c i LetterPosition.wrongPlacement).mpr hex
      rw [colorAnswer_badFalse (bad_of_kp_entry_false hkv), hkv]
  · constructor
    · intro h
      cases hb : (playWords (initApp sol wl) ws).badCharacters c with
      | true => exact (hbad c).mp hb
      | false =>
        rw [colorAnswer_badFalse hb] at h
        exact absurd rfl (kp_entry_sound h).1
    · intro hrhs
      rw [colorAnswer_badTrue ((hbad c).mpr hrhs)]

/-- C8: a letter that does not occur in the secret but occurs in some
    submitted guess is answered Absent by the accumulator at every query
    position — absence is decided by the secret's letters, not by
    position. -/
theorem claimC8 (sol : Word) (wl ws : List Word) (c : Char)
    (hnc : sol.contains c = false)
    (hocc : ∃ pg ∈ (playWords (initApp sol wl) ws).guesses, ∃ p ∈ pg, p.1 = c) :
    ∀ i, colorAnswer (playWords (initApp sol wl) ws) c i = some LetterPosition.none := by
  intro i
  obtain ⟨hguess, hkp, hbad⟩ := histInv_playWords sol wl ws
  rw [playWords_solution sol wl ws] at hbad
  exact colorAnswer_badTrue ((hbad c).mpr ⟨hnc, hocc⟩) i

/-- Witness for C8: with secret CRANE and submitted guess ROUND, the letter
    O (absent from CRANE) is answered Absent at position 2 (it occurred at
    position 1 of the guess). -/
theorem claimC8_witness :
    wCRANE.contains 'O' = false ∧
    (∃ pg ∈ (playWords (initApp wCRANE [wROUND]) [wROUND]).guesses,
      ∃ p ∈ pg, p.1 = 'O') ∧
    (∀ i, colorAnswer (playWords (initApp wCRANE [wROUND]) [wROUND]) 'O' i =
      some LetterPosition.none) :=
  ⟨by decide, by decide,
    claimC8 wCRANE [wROUND] [wROUND] 'O' (by decide) (by decide)⟩

theorem colorAnswer_mono_step {s : App} (hinv : HistInv s) (w : Word) (c : Char)
    (i : Nat) :
    strength (colorAnswer s c i) ≤ strength (colorAnswer (playWord s w) c i) := by
  unfold playWord
  by_cases hg : ({ s with currentGuessInput := w } : App).currentGuessInput.length ≠ 5 ∨
      ({ s with currentGuessInput := w } : App).wordList.contains
        ({ s with currentGuessInput := w } : App).currentGuessInput = false
  · rw [submit_reject hg]
    exact Nat.le_refl _
  · rw [submit_accept hg]
    obtain ⟨hguess, hkp, hbad⟩ := hinv
    cases hb : s.badCharacters c with
    | true =>
      have hb2 : (s.badCharacters c || (w.contains c && !(s.solution.contains c))) = true := by
        rw [hb]
        rfl
      rw [colorAnswer_badTrue hb, colorAnswer_badTrue (show _ from hb2)]
    | false =>
      rw [colorAnswer_badFalse hb]
      cases hb2 : (w.contains c && !(s.solution.contains c)) with
      | true =>
        have hcontf : s.solution.contains c = false := by
          cases hcc : s.solution.contains c with
          | false => rfl
          | true => rw [hcc] at hb2; simp at hb2
        have hkpnone : s.knownPositions (c, i) = Option.none := by
          cases hk : s.knownPositions (c, i) with
          | none => rfl
          | some v =>
            obtain ⟨pg, hm, hp⟩ := (hkp c i v).mp hk
            have mk := hguess pg hm i c v hp
            rw [mk.2.1] at hcontf
            cases hcontf
        have hbt : (s.badCharacters c || (w.contains c && !(s.solution.contains c))) = true := by
          rw [hb2]
          simp
        rw [colorAnswer_badTrue (show _ from hbt), hkpnone]
        exact Nat.zero_le _
      | false =>
        have hbf : (s.badCharacters c || (w.contains c && !(s.solution.contains c))) = false := by
          rw [hb, hb2]
          rfl
        rw [colorAnswer_badFalse (show _ from hbf)]
        show strength (s.knownPositions (c, i)) ≤
          strength (updateKnown (evaluateGuess s.solution w) s.knownPositions (c, i))
        rw [updateKnown_lookup]
        cases hpg : (evaluateGuess s.solution w).get? i with
        | none => exact Nat.le_refl _
        | some p =>
          obtain ⟨l, m⟩ := p
          cases m with
          | none => exact Nat.le_refl _
          | some v0 =>
            show strength (s.knownPositions (c, i)) ≤
              strength (if c = l then some v0 else s.knownPositions (c, i))
            by_cases hcl : c = l
            · rw [if_pos hcl]
              cases hk : s.knownPositions (c, i) with
              | none => exact Nat.zero_le _
              | some v =>
                obtain ⟨pg0, hm, hp⟩ := (hkp c i v).mp hk
                have mk1 := hguess pg0 hm i c v hp
                have mk2 : MarkOk s.solution i c v0 := by
                  apply evaluate_marks s.solution w i c v0
                  rw [hpg, hcl]
                rw [markOk_unique mk1 mk2]
            · rw [if_neg hcl]

/-- C5: appending one more submission to a guess history never decreases the
    accumulator's answer for any (letter, position), in the strength order
    unknown < Absent < Present < Correct. -/
theorem claimC5 (sol : Word) (wl ws : List Word) (w : Word) (c : Char) (i : Nat) :
    strength (colorAnswer (playWords (initApp sol wl) ws) c i) ≤
      strength (colorAnswer (playWords (initApp sol wl) (ws ++ [w])) c i) := by
  have hsplit : playWords (initApp sol wl) (ws ++ [w]) =
      playWord (playWords (initApp sol wl) ws) w :=
    List.foldl_concat playWord (initApp sol wl) w ws
  rw [hsplit]
  exact colorAnswer_mono_step (histInv_playWords sol wl ws) w c i

/-- C7: an invalid submission (wrong length or unknown word) leaves the
    entire state unchanged, and repeating it any number of times still
    changes nothing. -/
theorem claimC7 (s : App)
    (h : s.currentGuessInput.length ≠ 5 ∨
      s.wordList.contains s.currentGuessInput = false) :
    submitGuess s = s ∧ ∀ n : Nat, submitGuess^[n] s = s := by
  have h1 : submitGuess s = s := submit_reject h
  refine ⟨h1, ?_⟩
  intro n
  induction n with
  | zero => rfl
  | succ k ih => rw [Function.iterate_succ_apply, h1, ih]

/-- Witness for C7: with an empty input buffer (length 0, not 5), submitting
    once or three times changes nothing. -/
theorem claimC7_witness :
    ((initApp wCRANE [wROUND]).currentGuessInput.length ≠ 5 ∨
      (initApp wCRANE [wROUND]).wordList.contains
        (initApp wCRANE [wROUND]).currentGuessInput = false) ∧
    submitGuess (initApp wCRANE [wROUND]) = initApp wCRANE [wROUND] ∧
    submitGuess^[3] (initApp wCRANE [wROUND]) = initApp wCRANE [wROUND] :=
  ⟨Or.inl (by decide),
   (claimC7 (initApp wCRANE [wROUND]) (Or.inl (by decide))).1,
   (claimC7 (initApp wCRANE [wROUND]) (Or.inl (by decide))).2 3⟩

/-- C1: for 5-letter uppercase secret and guess, the verdicts computed at
    submission equal the two-pass reference algorithm with the per-letter
    remaining-count pool (the equality in fact needs no hypotheses). -/
theorem claimC1 (sol g : Word) (_hs : UppercaseWord5 sol) (_hg : UppercaseWord5 g) :
    verdicts (evaluateGuess sol g) = refEvaluate sol g :=
  evaluate_eq_ref sol g

/-- Witness for C1 at the specification's duplicate-letter example
    ALLOY / LLAMA. -/
theorem claimC1_witness :
    UppercaseWord5 wALLOY ∧ UppercaseWord5 wLLAMA ∧
    verdicts (evaluateGuess wALLOY wLLAMA) = refEvaluate wALLOY wLLAMA :=
  ⟨by decide, by decide, claimC1 wALLOY wLLAMA (by decide) (by decide)⟩

theorem pass2_markCount_le (sol : Word) :
    ∀ (todo done : List ScoredLetter),
      (∀ c, markCount (done ++ todo) c ≤ countIn sol c) →
      ∀ c, markCount (pass2Go sol done todo) c ≤ countIn sol c := by
  intro todo
  induction todo with
  | nil =>
    intro done H c
    have h2 := H c
    rw [List.append_nil] at h2
    simpa [pass2Go] using h2
  | cons hd rest ih =>
    obtain ⟨c0, m⟩ := hd
    intro done H
    rw [pass2Go]
    split
    · apply ih
      intro c
      rw [List.append_assoc, List.singleton_append]
      exact H c
    · split
      · rename_i hcond1 hcnt
        apply ih
        intro c
        rw [List.append_assoc, List.singleton_append, markCount_append, markCount_cons]
        have hold := H c
        rw [markCount_append, markCount_cons] at hold
        have hcnt' := hcnt
        rw [markCount_append, markCount_cons] at hcnt'
        by_cases hcc : (c0 == c) = true
        · have hceq : c0 = c := by simpa using hcc
          subst hceq
          simp only [beq_self_eq_true, Option.isSome_some, Option.isSome_none,
            Bool.and_true, Bool.true_and, if_true] at hold hcnt' ⊢
          omega
        · have hbf : (c0 == c) = false := by
            cases hcb : (c0 == c) with
            | false => rfl
            | true => exact absurd hcb hcc
          simp only [hbf, Bool.false_and] at hold hcnt' ⊢
          simp only [if_neg (by simp : ¬ (false = true))] at hold hcnt' ⊢
          omega
      · apply ih
        intro c
        rw [List.append_assoc, List.singleton_append]
        exact H c

theorem evaluate_markCount_le (sol g : Word) (c : Char) :
    markCount (evaluateGuess sol g) c ≤ countIn sol c := by
  unfold evaluateGuess
  apply pass2_markCount_le
  intro c'
  rw [List.nil_append]
  have h := pass1_markCount_le sol c' g 0
  rw [List.drop_zero] at h
  exact h

/-- C4: letter-count conservation — for any letter, the number of positions
    of an evaluated guess scored Correct or Present never exceeds that
    letter's number of occurrences in the secret. -/
theorem claimC4 (sol g : Word) (L : Char) (_hs : UppercaseWord5 sol)
    (_hg : UppercaseWord5 g) :
    ((evaluateGuess sol g).filter (fun p => p.1 == L &&
        (p.2 == some LetterPosition.correct ||
         p.2 == some LetterPosition.wrongPlacement))).length ≤ countIn sol L := by
  have h1 : ((evaluateGuess sol g).filter (fun p => p.1 == L &&
      (p.2 == some LetterPosition.correct ||
       p.2 == some LetterPosition.wrongPlacement))).length ≤
      markCount (evaluateGuess sol g) L := by
    unfold markCount
    rw [← List.countP_eq_length_filter, ← List.countP_eq_length_filter]
    apply List.countP_mono_left
    intro p _ hpred
    simp only [Bool.and_eq_true, Bool.or_eq_true] at hpred
    simp only [Bool.and_eq_true]
    refine ⟨hpred.1, ?_⟩
    rcases hpred.2 with h | h
    · have hp2 : p.2 = some LetterPosition.correct := by simpa using h
      rw [hp2]
      rfl
    · have hp2 : p.2 = some LetterPosition.wrongPlacement := by simpa using h
      rw [hp2]
      rfl
  exact Nat.le_trans h1 (evaluate_markCount_le sol g L)

/-- Witness for C4 at ALLOY / LLAMA with the duplicated letter L: two of the
    three guessed L's are credited, matching the secret's two L's. -/
theorem claimC4_witness :
    UppercaseWord5 wALLOY ∧ UppercaseWord5 wLLAMA ∧
    ((evaluateGuess wALLOY wLLAMA).filter (fun p => p.1 == 'L' &&
        (p.2 == some LetterPosition.correct ||
         p.2 == some LetterPosition.wrongPlacement))).length ≤ countIn wALLOY 'L' :=
  ⟨by decide, by decide, claimC4 wALLOY wLLAMA 'L' (by decide) (by decide)⟩

theorem charToNat_ofNat (n : Nat) (h : n.isValidChar) : (Char.ofNat n).toNat = n := by
  simp [Char.ofNat, h, Char.ofNatAux, Char.toNat, UInt32.toNat]

theorem char_toNat_inj (a b : Char) (h : a.toNat = b.toNat) : a = b := by
  apply Char.ext
  apply UInt32.eq_of_toBitVec_eq
  exact BitVec.eq_of_toNat_eq h

theorem char_le_iff_toNat (a b : Char) : a ≤ b ↔ a.toNat ≤ b.toNat := by
  rw [Char.le_def, UInt32.le_def]
  exact Iff.rfl

theorem toLower_toNat (c : Char) (h1 : 65 ≤ c.toNat) (h2 : c.toNat ≤ 90) :
    (Char.toLower c).toNat = c.toNat + 32 := by
  unfold Char.toLower
  rw [if_pos ⟨h1, h2⟩]
  apply charToNat_ofNat
  left
  omega

theorem toLower_inj_upper (x y : Char) (hx1 : 'A' ≤ x) (hx2 : x ≤ 'Z')
    (hy1 : 'A' ≤ y) (hy2 : y ≤ 'Z') (h : x.toLower = y.toLower) : x = y := by
  have ax : 65 ≤ x.toNat := (char_le_iff_toNat _ _).mp hx1
  have bx : x.toNat ≤ 90 := (char_le_iff_toNat _ _).mp hx2
  have ay : 65 ≤ y.toNat := (char_le_iff_toNat _ _).mp hy1
  have cy : y.toNat ≤ 90 := (char_le_iff_toNat _ _).mp hy2
  apply char_toNat_inj
  have h2 := congrArg Char.toNat h
  rw [toLower_toNat x ax bx, toLower_toNat y ay cy] at h2
  omega

theorem zip_self_all_toLower (a : Word) :
    (a.zip a).all (fun p => p.1.toLower == p.2.toLower) = true := by
  induction a with
  | nil => rfl
  | cons x xs ih =>
    rw [List.zip_cons_cons, List.all_cons, ih]
    simp

theorem eqIAC_refl (a : Word) : eqIgnoreAsciiCase a a = true := by
  unfold eqIgnoreAsciiCase
  rw [zip_self_all_toLower]
  simp

theorem eqIAC_eq_of_upper :
    ∀ (a b : Word), (∀ c ∈ a, 'A' ≤ c ∧ c ≤ 'Z') → (∀ c ∈ b, 'A' ≤ c ∧ c ≤ 'Z') →
      eqIgnoreAsciiCase a b = true → a = b := by
  intro a
  induction a with
  | nil =>
    intro b _ _ h
    cases b with
    | nil => rfl
    | cons y ys => simp [eqIgnoreAsciiCase] at h
  | cons x xs ih =>
    intro b ha hb h
    cases b with
    | nil => simp [eqIgnoreAsciiCase] at h
    | cons y ys =>
      unfold eqIgnoreAsciiCase at h
      simp only [List.length_cons, List.zip_cons_cons, List.all_cons,
        Bool.and_eq_true] at h
      obtain ⟨hlen, hhead, htail⟩ := h
      have hx : x = y := by
        apply toLower_inj_upper x y (ha x (List.mem_cons_self x xs)).1
          (ha x (List.mem_cons_self x xs)).2 (hb y (List.mem_cons_self y ys)).1
          (hb y (List.mem_cons_self y ys)).2
        simpa using hhead
      have hxs : xs = ys := by
        apply ih ys (fun c hc => ha c (List.mem_cons_of_mem x hc))
          (fun c hc => hb c (List.mem_cons_of_mem y hc))
        unfold eqIgnoreAsciiCase
        rw [htail, Bool.and_true]
        have hlen2 : xs.length = ys.length := by
          have := Nat.beq_eq_true_eq (xs.length + 1) (ys.length + 1) ▸ hlen
          omega
        rw [hlen2]
        simp
      rw [hx, hxs]

theorem pass1_self_marks (sol : Word) :
    ∀ (t : Word) (i : Nat), (∀ j, t.get? j = sol.get? (i + j)) →
      (pass1Go sol i t).all (fun p => p.2 == some LetterPosition.correct) = true := by
  intro t
  induction t with
  | nil => intro i _; rfl
  | cons c rest ih =>
    intro i hal
    have h0 : sol.get? i = some c := by
      have := hal 0
      rw [Nat.add_zero] at this
      exact this.symm
    rw [pass1Go, List.all_cons]
    have hmark : (sol.contains c && (sol.get? i == some c)) = true := by
      rw [mark_cond_eq, h0]
      simp
    rw [if_pos hmark]
    rw [ih (i + 1) ?hshift]
    case hshift =>
      intro j
      have := hal (j + 1)
      rw [show i + (j + 1) = i + 1 + j from by omega] at this
      exact this
    simp

theorem pass2_all_exact (sol : Word) :
    ∀ (todo done : List ScoredLetter),
      (∀ j c m, todo.get? j = some (c, m) → sol.get? (done.length + j) = some c) →
      pass2Go sol done todo = done ++ todo := by
  intro todo
  induction todo with
  | nil => intro done _; simp [pass2Go]
  | cons hd rest ih =>
    obtain ⟨c0, m⟩ := hd
    intro done H
    have hex : sol.get? done.length = some c0 := by
      have := H 0 c0 m rfl
      rwa [Nat.add_zero] at this
    rw [pass2Go_cons_skip sol done c0 m rest (by rw [hex]; simp)]
    rw [ih (done ++ [(c0, m)]) ?hsh]
    case hsh =>
      intro j c m' hj
      have := H (j + 1) c m' (by simpa using hj)
      rw [show done.length + (j + 1) = (done ++ [(c0, m)]).length + j from by
        simp [List.length_append]; omega] at this
      exact this
    rw [List.append_assoc, List.singleton_append]

theorem evaluate_self_allCorrect (sol : Word) :
    allCorrect (evaluateGuess sol sol) = true := by
  unfold evaluateGuess allCorrect
  rw [pass2_all_exact sol (pass1Go sol 0 sol) [] ?hexact]
  · rw [List.nil_append]
    exact pass1_self_marks sol sol 0 (fun j => by rw [Nat.zero_add])
  case hexact =>
    intro j c m h
    have h2 : (List.map Prod.fst (pass1Go sol 0 sol)).get? j = some c := by
      rw [List.get?_map, h]
      rfl
    rw [pass1_fst] at h2
    show sol.get? (0 + j) = some c
    rwa [Nat.zero_add]

theorem allCorrect_imp_eq (sol g : Word) (hl : sol.length = 5) (hgl : g.length = 5)
    (h : allCorrect (evaluateGuess sol g) = true) : sol = g := by
  apply List.ext_get?
  intro n
  by_cases hn : n < g.length
  · have hlen : (evaluateGuess sol g).length = g.length := evaluate_length sol g
    cases hE : (evaluateGuess sol g).get? n with
    | none =>
      have := List.get?_eq_none.mp hE
      omega
    | some p =>
      obtain ⟨c, m⟩ := p
      have hmem : (c, m) ∈ evaluateGuess sol g := List.get?_mem hE
      have hall := List.all_eq_true.mp h _ hmem
      have hm : m = some LetterPosition.correct := by simpa using hall
      subst hm
      have mk := evaluate_marks sol g n c LetterPosition.correct hE
      have hsoln : sol.get? n = some c := mk.2.2.mp rfl
      have hgn : g.get? n = some c := by
        have h2 : (List.map Prod.fst (evaluateGuess sol g)).get? n = some c := by
          rw [List.get?_map, hE]
          rfl
        rwa [evaluate_fst] at h2
      rw [hsoln, hgn]
  · have h1 : sol.get? n = Option.none := List.get?_eq_none.mpr (by omega)
    have h2 : g.get? n = Option.none := List.get?_eq_none.mpr (by omega)
    rw [h1, h2]

theorem win_iff_allCorrect (sol g : Word) (hs : UppercaseWord5 sol)
    (hg : UppercaseWord5 g) :
    (eqIgnoreAsciiCase sol g = true ↔ allCorrect (evaluateGuess sol g) = true) := by
  constructor
  · intro h
    have heq : sol = g := eqIAC_eq_of_upper sol g hs.2 hg.2 h
    rw [← heq]
    exact evaluate_self_allCorrect sol
  · intro h
    have heq : sol = g := allCorrect_imp_eq sol g hs.1 hg.1 h
    rw [heq]
    exact eqIAC_refl g

/-- C10: for an accepted (5-letter uppercase) guess, the session's win test
    — ASCII-case-insensitive equality of guess and secret — holds exactly
    when the verdict sequence computed for the guess is all-Correct. -/
theorem claimC10 (sol g : Word) (hs : UppercaseWord5 sol) (hg : UppercaseWord5 g) :
    (eqIgnoreAsciiCase sol g = true ↔ allCorrect (evaluateGuess sol g) = true) :=
  win_iff_allCorrect sol g hs hg

/-- Witness for C10 at secret CRANE and its winning guess. -/
theorem claimC10_witness :
    UppercaseWord5 wCRANE ∧
    (eqIgnoreAsciiCase wCRANE wCRANE = true ↔
      allCorrect (evaluateGuess wCRANE wCRANE) = true) :=
  ⟨by decide, claimC10 wCRANE wCRANE (by decide) (by decide)⟩

theorem uint32_le_toNat (a b : UInt32) : a ≤ b ↔ a.toNat ≤ b.toNat := by
  rw [UInt32.le_def]
  exact Iff.rfl

theorem isUpper_toNat (c : Char) (h : c.isUpper = true) :
    65 ≤ c.toNat ∧ c.toNat ≤ 90 := by
  simp [Char.isUpper] at h
  constructor
  · have := (uint32_le_toNat 65 c.val).mp h.1
    simpa using this
  · have := (uint32_le_toNat c.val 90).mp h.2
    simpa using this

theorem isLower_toNat (c : Char) (h : c.isLower = true) :
    97 ≤ c.toNat ∧ c.toNat ≤ 122 := by
  simp [Char.isLower] at h
  constructor
  · have := (uint32_le_toNat 97 c.val).mp h.1
    simpa using this
  · have := (uint32_le_toNat c.val 122).mp h.2
    simpa using this

theorem toUpper_upper (c : Char) (h : isAlphabetic c = true) :
    'A' ≤ c.toUpper ∧ c.toUpper ≤ 'Z' := by
  unfold isAlphabetic at h
  rw [Char.isAlpha, Bool.or_eq_true] at h
  have hA : ('A' : Char).toNat = 65 := by decide
  have hZ : ('Z' : Char).toNat = 90 := by decide
  rcases h with hu | hl
  · obtain ⟨h65, h90⟩ := isUpper_toNat c hu
    have hupper : c.toUpper = c := by
      unfold Char.toUpper
      rw [if_neg (by intro hx; omega)]
    rw [hupper]
    constructor
    · rw [char_le_iff_toNat, hA]
      omega
    · rw [char_le_iff_toNat, hZ]
      omega
  · obtain ⟨h97, h122⟩ := isLower_toNat c hl
    have htn : c.toUpper.toNat = c.toNat - 32 := by
      unfold Char.toUpper
      rw [if_pos ⟨h97, h122⟩]
      apply charToNat_ofNat
      left
      omega
    constructor
    · rw [char_le_iff_toNat, hA, htn]
      omega
    · rw [char_le_iff_toNat, hZ, htn]
      omega

/-- Invariant of the pending input buffer: at most five characters, all
    uppercase ASCII letters. -/
def InputInv (s : App) : Prop :=
  s.currentGuessInput.length ≤ 5 ∧ ∀ c ∈ s.currentGuessInput, 'A' ≤ c ∧ c ≤ 'Z'

theorem inputInv_step (s : App) (e : KeyEvent) (h : InputInv s) : InputInv (step s e) := by
  unfold step
  by_cases hx : s.exit = true
  · rw [if_pos hx]
    exact h
  · rw [if_neg hx]
    cases e with
    | ctrlC => exact h
    | enter =>
      show InputInv (submitGuess s)
      by_cases hg : s.currentGuessInput.length ≠ 5 ∨
          s.wordList.contains s.currentGuessInput = false
      · rw [submit_reject hg]
        exact h
      · rw [submit_accept hg]
        refine ⟨by simp, ?_⟩
        intro c hc
        cases hc
    | backspace =>
      refine ⟨?_, ?_⟩
      · show s.currentGuessInput.dropLast.length ≤ 5
        rw [List.length_dropLast]
        have h1 := h.1
        omega
      · intro c hc
        exact h.2 c ((List.dropLast_sublist s.currentGuessInput).subset hc)
    | char c =>
      show InputInv (if s.currentGuessInput.length < 5 && isAlphabetic c then
        { s with currentGuessInput := s.currentGuessInput ++ [c.toUpper] } else s)
      by_cases hcond : s.currentGuessInput.length < 5 ∧ isAlphabetic c = true
      · rw [if_pos ?hp]
        case hp =>
          rw [hcond.2]
          simp [hcond.1]
        refine ⟨?_, ?_⟩
        · show (s.currentGuessInput ++ [c.toUpper]).length ≤ 5
          rw [List.length_append]
          have := hcond.1
          simp only [List.length_singleton]
          omega
        · intro x hxm
          rcases List.mem_append.mp hxm with hm | hm
          · exact h.2 x hm
          · rw [List.mem_singleton.mp hm]
            exact toUpper_upper c hcond.2
      · rw [if_neg ?hp2]
        case hp2 =>
          intro hcb
          simp only [Bool.and_eq_true, decide_eq_true_eq] at hcb
          exact hcond hcb
        exact h
    | other => exact h

theorem inputInv_run : ∀ (es : List KeyEvent) (s : App),
    InputInv s → InputInv (runEvents s es) := by
  intro es
  induction es with
  | nil => intro s h; exact h
  | cons e rest ih =>
    intro s h
    exact ih (step s e) (inputInv_step s e h)

/-- C6: in every reachable state the pending input holds at most five
    characters, and a typed character is appended (case-normalized) exactly
    when the session has not exited, the buffer is shorter than five, and
    the character is alphabetic; otherwise typing is a no-op. -/
theorem claimC6 (sol : Word) (wl : List Word) (es : List KeyEvent) (s : App)
    (c : Char) :
    (runEvents (initApp sol wl) es).currentGuessInput.length ≤ 5 ∧
    (step s (KeyEvent.char c) =
      if s.exit = false ∧ s.currentGuessInput.length < 5 ∧ isAlphabetic c = true then
        { s with currentGuessInput := s.currentGuessInput ++ [c.toUpper] }
      else s) := by
  constructor
  · have hinit : InputInv (initApp sol wl) :=
      ⟨Nat.zero_le 5, fun x hx => nomatch hx⟩
    exact (inputInv_run es (initApp sol wl) hinit).1
  · unfold step
    by_cases hx : s.exit = true
    · have hcf : ¬(s.exit = false ∧ s.currentGuessInput.length < 5 ∧
          isAlphabetic c = true) := by
        intro hcond
        rw [hx] at hcond
        cases hcond.1
      rw [if_pos hx, if_neg hcf]
    · have hxf : s.exit = false := by
        cases hxx : s.exit with
        | false => rfl
        | true => exact absurd hxx hx
      rw [if_neg hx]
      show (if s.currentGuessInput.length < 5 && isAlphabetic c then
        { s with currentGuessInput := s.currentGuessInput ++ [c.toUpper] } else s) = _
      by_cases hcond : s.currentGuessInput.length < 5 ∧ isAlphabetic c = true
      · rw [if_pos ?hp3, if_pos ⟨hxf, hcond⟩]
        case hp3 =>
          rw [hcond.2]
          simp [hcond.1]
      · rw [if_neg ?hp4, if_neg ?hp5]
        case hp4 =>
          intro hcb
          simp only [Bool.and_eq_true, decide_eq_true_eq] at hcb
          exact hcond hcb
        case hp5 =>
          intro hcb
          exact hcond hcb.2

theorem handleKeyEvent_solution (s : App) (e : KeyEvent) :
    (handleKeyEvent s e).solution = s.solution := by
  cases e with
  | ctrlC => rfl
  | enter => exact submit_solution s
  | backspace => rfl
  | char c =>
    show (if s.currentGuessInput.length < 5 && isAlphabetic c then
      { s with currentGuessInput := s.currentGuessInput ++ [c.toUpper] } else s).solution =
      s.solution
    split
    · rfl
    · rfl
  | other => rfl

theorem step_solution (s : App) (e : KeyEvent) : (step s e).solution = s.solution := by
  unfold step
  split
  · rfl
  · exact handleKeyEvent_solution s e

/-- Bound on the number of recorded guesses together with the fact that a
    full board forces exit; preserved by every event, including quit. -/
def GuessBound (s : App) : Prop :=
  s.guesses.length ≤ 6 ∧ (6 ≤ s.guesses.length → s.exit = true)

theorem guessBound_step (s : App) (e : KeyEvent) (h : GuessBound s) :
    GuessBound (step s e) := by
  unfold step
  by_cases hx : s.exit = true
  · rw [if_pos hx]
    exact h
  · rw [if_neg hx]
    cases e with
    | ctrlC => exact ⟨h.1, fun _ => rfl⟩
    | enter =>
      show GuessBound (submitGuess s)
      by_cases hg : s.currentGuessInput.length ≠ 5 ∨
          s.wordList.contains s.currentGuessInput = false
      · rw [submit_reject hg]
        exact h
      · rw [submit_accept hg]
        have hlt : s.guesses.length < 6 := by
          by_contra hge
          exact hx (h.2 (by omega))
        constructor
        · show (s.guesses ++ [evaluateGuess s.solution s.currentGuessInput]).length ≤ 6
          rw [List.length_append]
          simp only [List.length_singleton]
          omega
        · intro h6
          have h6' : 6 ≤ (s.guesses ++ [evaluateGuess s.solution s.currentGuessInput]).length :=
            h6
          show (if eqIgnoreAsciiCase s.solution s.currentGuessInput ||
              ((s.guesses ++ [evaluateGuess s.solution s.currentGuessInput]).length == 6)
            then true else s.exit) = true
          have hlen6 :
              ((s.guesses ++ [evaluateGuess s.solution s.currentGuessInput]).length == 6) =
                true := by
            simp only [Nat.beq_eq_true_eq]
            have h7 : (s.guesses ++ [evaluateGuess s.solution s.currentGuessInput]).length ≤ 6 := by
              rw [List.length_append]
              simp only [List.length_singleton]
              omega
            omega
          rw [hlen6, Bool.or_true, if_pos rfl]
    | backspace => exact h
    | char c =>
      show GuessBound (if s.currentGuessInput.length < 5 && isAlphabetic c then
        { s with currentGuessInput := s.currentGuessInput ++ [c.toUpper] } else s)
      split
      · exact h
      · exact h
    | other => exact h

theorem guessBound_run : ∀ (es : List KeyEvent) (s : App),
    GuessBound s → GuessBound (runEvents s es) := by
  intro es
  induction es with
  | nil => intro s h; exact h
  | cons e rest ih =>
    intro s h
    exact ih (step s e) (guessBound_step s e h)

theorem submit_accept_guesses {s : App}
    (h : ¬(s.currentGuessInput.length ≠ 5 ∨
        s.wordList.contains s.currentGuessInput = false)) :
    (submitGuess s).guesses =
      s.guesses ++ [evaluateGuess s.solution s.currentGuessInput] := by
  rw [submit_accept h]

theorem submit_accept_exit {s : App}
    (h : ¬(s.currentGuessInput.length ≠ 5 ∨
        s.wordList.contains s.currentGuessInput = false)) :
    (submitGuess s).exit =
      (if eqIgnoreAsciiCase s.solution s.currentGuessInput ||
          ((s.guesses ++ [evaluateGuess s.solution s.currentGuessInput]).length == 6)
       then true else s.exit) := by
  rw [submit_accept h]

theorem submit_accept_last {s : App}
    (h : ¬(s.currentGuessInput.length ≠ 5 ∨
        s.wordList.contains s.currentGuessInput = false)) :
    lastAllCorrect (submitGuess s) =
      allCorrect (evaluateGuess s.solution s.currentGuessInput) := by
  unfold lastAllCorrect
  rw [submit_accept_guesses h, List.getLast?_concat]

/-- Characterization of the exit flag for quit-free runs: exit is set exactly
    on a full board or a winning last guess. -/
def ExitInv (s : App) : Prop :=
  s.exit = true ↔ (s.guesses.length = 6 ∨ lastAllCorrect s = true)

theorem exitInv_step (s : App) (e : KeyEvent) (hsolu : UppercaseWord5 s.solution)
    (hin : InputInv s) (hex : ExitInv s) (hne : e ≠ KeyEvent.ctrlC) :
    ExitInv (step s e) := by
  unfold step
  by_cases hx : s.exit = true
  · rw [if_pos hx]
    exact hex
  · rw [if_neg hx]
    have hxf : s.exit = false := by
      cases hxx : s.exit with
      | false => rfl
      | true => exact absurd hxx hx
    cases e with
    | ctrlC => exact absurd rfl hne
    | enter =>
      show ExitInv (submitGuess s)
      by_cases hg : s.currentGuessInput.length ≠ 5 ∨
          s.wordList.contains s.currentGuessInput = false
      · rw [submit_reject hg]
        exact hex
      · have hlen5 : s.currentGuessInput.length = 5 := by
          by_contra hne5
          exact hg (Or.inl hne5)
        have hwin := win_iff_allCorrect s.solution s.currentGuessInput hsolu
          ⟨hlen5, hin.2⟩
        unfold ExitInv
        rw [submit_accept_exit hg, submit_accept_guesses hg, submit_accept_last hg]
        cases hc : (eqIgnoreAsciiCase s.solution s.currentGuessInput ||
            ((s.guesses ++ [evaluateGuess s.solution s.currentGuessInput]).length == 6)) with
        | true =>
          rw [if_pos rfl]
          have hc2 : eqIgnoreAsciiCase s.solution s.currentGuessInput = true ∨
              ((s.guesses ++ [evaluateGuess s.solution s.currentGuessInput]).length == 6) =
                true := by
            simpa using hc
          constructor
          · intro _
            rcases hc2 with hw | h6
            · exact Or.inr (hwin.mp hw)
            · exact Or.inl (by simpa using h6)
          · intro _
            rfl
        | false =>
          rw [if_neg Bool.false_ne_true]
          have hw : eqIgnoreAsciiCase s.solution s.currentGuessInput = false := by
            cases hcc : eqIgnoreAsciiCase s.solution s.currentGuessInput with
            | false => rfl
            | true => rw [hcc] at hc; simp at hc
          have hb : ((s.guesses ++ [evaluateGuess s.solution s.currentGuessInput]).length ==
              6) = false := by
            cases hcc : ((s.guesses ++
                [evaluateGuess s.solution s.currentGuessInput]).length == 6) with
            | false => rfl
            | true => rw [hcc] at hc; simp at hc
          constructor
          · intro hfe
            rw [hxf] at hfe
            cases hfe
          · intro hor
            exfalso
            rcases hor with h6 | hac
            · have h7 : ((s.guesses ++
                  [evaluateGuess s.solution s.currentGuessInput]).length == 6) = true := by
                simpa using h6
              rw [h7] at hb
              cases hb
            · have h8 := hwin.mpr hac
              rw [h8] at hw
              cases hw
    | backspace => exact hex
    | char c =>
      show ExitInv (if s.currentGuessInput.length < 5 && isAlphabetic c then
        { s with currentGuessInput := s.currentGuessInput ++ [c.toUpper] } else s)
      split
      · exact hex
      · exact hex
    | other => exact hex

theorem exitInv_run (sol : Word) (hs : UppercaseWord5 sol) :
    ∀ (es : List KeyEvent) (s : App), s.solution = sol → InputInv s → ExitInv s →
      KeyEvent.ctrlC ∉ es → ExitInv (runEvents s es) := by
  intro es
  induction es with
  | nil =>
    intro s _ _ hex _
    exact hex
  | cons e rest ih =>
    intro s hsol hin hex hmem
    have hne : e ≠ KeyEvent.ctrlC := by
      intro heq
      exact hmem (by rw [heq]; exact List.mem_cons_self _ _)
    have hmem2 : KeyEvent.ctrlC ∉ rest := by
      intro hm
      exact hmem (List.mem_cons_of_mem _ hm)
    apply ih (step s e) (by rw [step_solution, hsol]) (inputInv_step s e hin) ?hx hmem2
    case hx =>
      apply exitInv_step s e ?hsolu hin hex hne
      case hsolu => rwa [hsol]

/-- C3 counterexample: a single quit (Ctrl-C) event sets exit in a state
    with no guesses recorded, so exit is not equivalent to "six guesses or
    winning last guess" once quit is among the events. -/
theorem claimC3_counterexample :
    (runEvents (initApp wCRANE []) [KeyEvent.ctrlC]).exit = true ∧
    ¬((runEvents (initApp wCRANE []) [KeyEvent.ctrlC]).guesses.length = 6 ∨
      lastAllCorrect (runEvents (initApp wCRANE []) [KeyEvent.ctrlC]) = true) := by
  decide

/-- C3 amended: over any sequence of input events at most six guesses are
    ever recorded, and for sequences free of the quit event, the session has
    exited exactly when six guesses are recorded or the last recorded guess
    is all-Correct. -/
theorem claimC3_amended (sol : Word) (wl : List Word) (es : List KeyEvent)
    (hs : UppercaseWord5 sol) :
    (runEvents (initApp sol wl) es).guesses.length ≤ 6 ∧
    (KeyEvent.ctrlC ∉ es →
      ((runEvents (initApp sol wl) es).exit = true ↔
        ((runEvents (initApp sol wl) es).guesses.length = 6 ∨
         lastAllCorrect (runEvents (initApp sol wl) es) = true))) := by
  constructor
  · have hinit : GuessBound (initApp sol wl) :=
      ⟨by simp [initApp], fun h6 => absurd h6 (by simp [initApp])⟩
    exact (guessBound_run es (initApp sol wl) hinit).1
  · intro hmem
    have hinit1 : InputInv (initApp sol wl) := ⟨Nat.zero_le 5, fun x hx => nomatch hx⟩
    have hinit2 : ExitInv (initApp sol wl) := by
      constructor
      · intro h
        cases h
      · intro hor
        rcases hor with h6 | hac
        · exact absurd h6 (by simp [initApp])
        · exact absurd hac (by simp [initApp, lastAllCorrect])
    exact exitInv_run sol hs es (initApp sol wl) rfl hinit1 hinit2 hmem

/-- Witness for the amended C3 at the empty event sequence. -/
theorem claimC3_witness :
    UppercaseWord5 wCRANE ∧
    ((runEvents (initApp wCRANE []) []).guesses.length ≤ 6 ∧
      (KeyEvent.ctrlC ∉ ([] : List KeyEvent) →
        ((runEvents (initApp wCRANE []) []).exit = true ↔
          ((runEvents (initApp wCRANE []) []).guesses.length = 6 ∨
           lastAllCorrect (runEvents (initApp wCRANE []) []) = true)))) :=
  ⟨by decide, claimC3_amended wCRANE [] [] (by decide)⟩
